import Mathlib

/-!
Verification development for the configurable-pipeline and structured-output
core described by this repository's specification.  The repository itself is a
documentation corpus; the only executable program logic under `src/` is the
custom fenced-block parser `extract_json` in
`docs/docs/how_to/structured_output.ipynb`, which is embedded faithfully below.
The pipeline-configuration component (`configurable_alternatives`,
`with_config`) and the structured-output extractor (`with_structured_output`,
streaming decode, `get_format_instructions`) live in the external library the
notebooks exercise, so those components are modelled from the specification, as
stated in the doc comment of each such definition.
-/

set_option autoImplicit false

deriving instance DecidableEq for Except

/-- Association-list lookup by key, returning the value of the first pair whose
key matches.  Used for configuration overlays, alternative tables and decoded
JSON objects alike. -/
def alookup {κ α : Type} [DecidableEq κ] (k : κ) : List (κ × α) → Option α
  | [] => none
  | (k', v) :: rest => if k' = k then some v else alookup k rest

/-- Boolean list-prefix test on character lists. -/
def prefixOf : List Char → List Char → Bool
  | [], _ => true
  | _ :: _, [] => false
  | a :: as, b :: bs => a == b && prefixOf as bs

/-- Whitespace characters accepted between JSON tokens. -/
def isWs (c : Char) : Bool := c == ' ' || c == '\n' || c == '\t' || c == '\r'

/-- Characters that may start a JSON number literal. -/
def isNumStart (c : Char) : Bool := c.isDigit || c == '-'

/-- Characters that may continue a JSON number literal. -/
def isNumChar (c : Char) : Bool :=
  c.isDigit || c == '.' || c == '-' || c == '+' || c == 'e' || c == 'E'

/-- A partially decoded field value: a string or a number, together with a flag
recording whether the value is already complete (its closing delimiter was
seen) or is still the prefix of a value being streamed. -/
inductive PVal where
  | pstr (cs : List Char) (complete : Bool)
  | pnum (cs : List Char) (complete : Bool)
deriving DecidableEq

/-- A (partially) decoded flat JSON object: an ordered association list from
keys to partially decoded values. -/
abbrev PObj := List (List Char × PVal)

/-- Modelled from the spec: the incremental-decode state of the structured
output extractor (§4.2 streaming variant and §9 design notes) — "a small
parser holding the longest-valid-prefix parse state".  Each constructor
records the completed key-value pairs so far plus the component currently
being read.  The states `closed` and `failed` freeze the decode at the longest
valid prefix. -/
inductive PState where
  | start
  | expectKey (done : PObj)
  | inKey (done : PObj) (kacc : List Char)
  | expectColon (done : PObj) (k : List Char)
  | expectVal (done : PObj) (k : List Char)
  | inStrVal (done : PObj) (k : List Char) (vacc : List Char) (esc : Bool)
  | inNumVal (done : PObj) (k : List Char) (vacc : List Char)
  | afterVal (done : PObj)
  | closed (done : PObj)
  | failed (done : PObj)
deriving DecidableEq

/-- Modelled from the spec: one character of incremental JSON-object decoding
(§4.2 streaming variant).  Transitions follow flat-object JSON syntax; on an
unexpected character the state freezes (`failed`) at the longest valid
prefix, and after the closing brace only trailing whitespace is accepted. -/
def pstep : PState → Char → PState
  | .start, c =>
      if c = '\x7b' then .expectKey []
      else if isWs c then .start
      else .failed []
  | .expectKey done, c =>
      if c = '"' then .inKey done []
      else if c = '\x7d' then .closed done
      else if isWs c then .expectKey done
      else .failed done
  | .inKey done kacc, c =>
      if c = '"' then .expectColon done kacc
      else .inKey done (kacc ++ [c])
  | .expectColon done k, c =>
      if c = ':' then .expectVal done k
      else if isWs c then .expectColon done k
      else .failed done
  | .expectVal done k, c =>
      if c = '"' then .inStrVal done k [] false
      else if isNumStart c then .inNumVal done k [c]
      else if isWs c then .expectVal done k
      else .failed done
  | .inStrVal done k vacc esc, c =>
      if esc then .inStrVal done k (vacc ++ [c]) false
      else if c = '"' then .afterVal (done ++ [(k, .pstr vacc true)])
      else if c = '\\' then .inStrVal done k vacc true
      else .inStrVal done k (vacc ++ [c]) false
  | .inNumVal done k vacc, c =>
      if isNumChar c then .inNumVal done k (vacc ++ [c])
      else if c = ',' then .expectKey (done ++ [(k, .pnum vacc true)])
      else if c = '\x7d' then .closed (done ++ [(k, .pnum vacc true)])
      else if isWs c then .afterVal (done ++ [(k, .pnum vacc true)])
      else .failed (done ++ [(k, .pnum vacc true)])
  | .afterVal done, c =>
      if c = ',' then .expectKey done
      else if c = '\x7d' then .closed done
      else if isWs c then .afterVal done
      else .failed done
  | .closed done, c => if isWs c then .closed done else .failed done
  | .failed done, _ => .failed done

/-- Modelled from the spec: the best-effort decode emitted from a given parse
state — the completed pairs, plus the key currently being valued with its
current value prefix (keys appear as soon as their value starts, matching the
streamed outputs shown in `structured_output.ipynb`). -/
def emit : PState → PObj
  | .start => []
  | .expectKey done => done
  | .inKey done _ => done
  | .expectColon done _ => done
  | .expectVal done _ => done
  | .inStrVal done k vacc _ => done ++ [(k, .pstr vacc false)]
  | .inNumVal done k vacc => done ++ [(k, .pnum vacc false)]
  | .afterVal done => done
  | .closed done => done
  | .failed done => done

/-- Feed a whole chunk of text into the incremental decoder. -/
def feedChunk (st : PState) (chunk : String) : PState :=
  chunk.data.foldl pstep st

/-- Information order on partially decoded values: a value may only be
extended (a longer prefix of the same field, under the same key) or completed;
once complete it is frozen. -/
def pvalLE : PVal → PVal → Bool
  | .pstr cs b, .pstr cs' b' => if b then b' && cs == cs' else prefixOf cs cs'
  | .pnum cs b, .pnum cs' b' => if b then b' && cs == cs' else prefixOf cs cs'
  | _, _ => false

/-- Information order on partial decodes: every key already emitted is still
present, and its value has only been extended or completed — never retracted
to empty or missing. -/
def infoLE (d d' : PObj) : Bool :=
  d.all fun p =>
    match alookup p.1 d, alookup p.1 d' with
    | some v, some w => pvalLE v w
    | _, _ => false
/-- Field types supported by a declared schema. -/
inductive FieldType where
  | fstring
  | fnumber
deriving DecidableEq

/-- A decoded field value after validation: a string, a number (kept as its
literal digits), or the explicit absent marker used for optional fields that
were not supplied and have no declared default. -/
inductive Val where
  | vstr (cs : List Char)
  | vnum (cs : List Char)
  | vnull
deriving DecidableEq

/-- Modelled from the spec: a declared schema field (§3 Schema) — name, type,
required flag, human-readable description, and the declared default used when
an optional field is absent. -/
structure SchemaField where
  name : String
  ftype : FieldType
  required : Bool
  description : String
  default : Option Val
deriving DecidableEq

/-- Modelled from the spec: a declarative description of the expected output
shape (§3 Schema): an ordered list of field declarations. -/
structure Schema where
  fields : List SchemaField
deriving DecidableEq

/-- Modelled from the spec: `declare` fails with `SchemaError` on a malformed
schema declaration; well-formedness here is the absence of duplicate field
names. -/
def schemaWF (S : Schema) : Bool :=
  (S.fields.map (fun f => f.name)).Nodup

/-- Modelled from the spec: the streaming variant `extractIncremental`
(§4.2) applied from a given decoder state: each output element is the
best-effort decode of the text accumulated so far. -/
def extractIncrementalFrom (st : PState) : List String → List PObj
  | [] => []
  | c :: cs => emit (feedChunk st c) :: extractIncrementalFrom (feedChunk st c) cs

/-- Modelled from the spec: `extractIncremental(schemaHandle,
partialTextSequence)` (§4.2 streaming variant).  Each element of the output
sequence is the best-effort decode of the accumulated text after the
corresponding chunk; the schema handle steers the generative step but the
best-effort decode itself is schema-independent, as in the source notebooks'
aggregated streamed dicts. -/
def extractIncremental (S : Schema) (chunks : List String) : List PObj :=
  extractIncrementalFrom PState.start chunks
/-- Convert a (complete) parsed value to its validated form. -/
def toVal : PVal → Val
  | .pstr cs _ => .vstr cs
  | .pnum cs _ => .vnum cs

/-- Type-correctness of a decoded value against a declared field type. -/
def typeOk : FieldType → PVal → Bool
  | .fstring, .pstr _ _ => true
  | .fnumber, .pnum _ _ => true
  | _, _ => false

/-- Modelled from the spec: validation errors (§4.2 Validation). -/
inductive VErr where
  | missingField (name : String)
  | typeMismatch (name : String)
deriving DecidableEq

/-- Modelled from the spec: per-field validation (§4.2 Validation).  Every
required field must be present and type-correct; an absent optional field is
filled with its declared default, or with the explicit absent marker
`Val.vnull` — never silently coerced to zero or the empty string. -/
def validateFields (obj : PObj) : List SchemaField → Except VErr (List (List Char × Val))
  | [] => .ok []
  | f :: fs =>
      match alookup f.name.data obj with
      | some pv =>
          if typeOk f.ftype pv then
            match validateFields obj fs with
            | .ok l => .ok ((f.name.data, toVal pv) :: l)
            | .error e => .error e
          else .error (.typeMismatch f.name)
      | none =>
          if f.required then .error (.missingField f.name)
          else
            match validateFields obj fs with
            | .ok l => .ok ((f.name.data, f.default.getD .vnull) :: l)
            | .error e => .error e

/-- The names declared by a schema, as character lists. -/
def schemaNames (S : Schema) : List (List Char) :=
  S.fields.map fun f => f.name.data

/-- Modelled from the spec: a validated extraction value — the schema's fields
with their validated values, plus extra fields not in the schema, preserved
and flagged as unexpected rather than dropped (§4.2 Validation). -/
structure Validated where
  fields : List (List Char × Val)
  unexpected : List (List Char × Val)
deriving DecidableEq

/-- Modelled from the spec: schema validation of a decoded object
(§4.2 Validation). -/
def validate (S : Schema) (obj : PObj) : Except VErr Validated :=
  match validateFields obj S.fields with
  | .ok l =>
      .ok ⟨l, (obj.filter fun kv => !(decide (kv.1 ∈ schemaNames S))).map
        fun kv => (kv.1, toVal kv.2)⟩
  | .error e => .error e

/-- Run the flat-object JSON decoder to completion on a whole character list;
succeeds only when the text is a complete well-formed object (with arbitrary
surrounding whitespace). -/
def parseObjChars (cs : List Char) : Option PObj :=
  match cs.foldl pstep PState.start with
  | .closed done => some done
  | _ => none

/-- Split a character list at the first occurrence of `tag`: returns the text
before the tag and the text after it.  This mirrors leftmost regex matching. -/
def splitAtTag (tag : List Char) : List Char → Option (List Char × List Char)
  | [] => none
  | c :: cs =>
      if prefixOf tag (c :: cs) then some ([], (c :: cs).drop tag.length)
      else
        match splitAtTag tag cs with
        | some (b, r) => some (c :: b, r)
        | none => none

/-- The opening fence of a JSON block. -/
def jsonTagChars : List Char := ['\x60', '\x60', '\x60', 'j', 's', 'o', 'n']

/-- The closing fence of a JSON block. -/
def fenceChars : List Char := ['\x60', '\x60', '\x60']

/-- Modelled from the spec: pattern-based extraction of the first embedded
delimited block — the first fenced code block tagged as structured data
(§4.2 stage (b)). -/
def firstFencedBlock (content : List Char) : Option (List Char) :=
  match splitAtTag jsonTagChars content with
  | some (_, afterTag) =>
      match splitAtTag fenceChars afterTag with
      | some (block, _) => some block
      | none => none
  | none => none

/-- Modelled from the spec: the raw response of the generative step — free
text plus the optional explicit machine-readable payload (tool-call
arguments) used by extraction stage (a). -/
structure Message where
  content : String
  toolCallArgs : Option PObj
deriving DecidableEq

/-- Modelled from the spec: an `ExtractionResult` (§3) — either a value
conforming to the schema or a tagged failure carrying the raw text and a
description of which stage failed. -/
inductive ExtractionResult where
  | success (v : Validated)
  | failure (raw : String) (stage : String)
deriving DecidableEq

/-- Modelled from the spec: the typed error raised when extraction fails and
the caller did not opt into raw mode (§7 ExtractionFailure). -/
inductive ExtractError where
  | extractionFailure (raw : String) (stage : String)
deriving DecidableEq

/-- Modelled from the spec: extraction stage (a) — direct structured decoding
of the explicit machine-readable payload, validated against the schema's
field names (§4.2). -/
def stageDirect (S : Schema) (msg : Message) : Option Validated :=
  match msg.toolCallArgs with
  | some args => (validate S args).toOption
  | none => none

/-- Modelled from the spec: extraction stage (b) — decoding of the first
fenced structured-data block in the free text (§4.2). -/
def stageFenced (S : Schema) (msg : Message) : Option Validated :=
  match firstFencedBlock msg.content.data with
  | some block =>
      match parseObjChars block with
      | some obj => (validate S obj).toOption
      | none => none
  | none => none

/-- The stage description carried by a failure result. -/
def bothStagesFailed : String :=
  "direct structured decoding and fenced-block extraction both failed"

/-- Modelled from the spec: `extract(schemaHandle, rawText)` (§4.2) —
attempts stage (a), then stage (b), and otherwise returns the failure
variant carrying the raw text. -/
def extractCore (S : Schema) (msg : Message) : ExtractionResult :=
  match stageDirect S msg with
  | some v => .success v
  | none =>
      match stageFenced S msg with
      | some v => .success v
      | none => .failure msg.content bothStagesFailed

/-- Modelled from the spec: `extract` at the caller boundary — when raw mode
was requested the failure is returned as data and nothing is raised;
otherwise a typed error is raised (§4.2 stage (c), §7). -/
def extract (S : Schema) (msg : Message) (rawMode : Bool) :
    Except ExtractError ExtractionResult :=
  match extractCore S msg with
  | .success v => .ok (.success v)
  | .failure raw stage =>
      if rawMode then .ok (.failure raw stage)
      else .error (.extractionFailure raw stage)

/-- Modelled from the spec: a step implementation — its configurable fields
with their default values, and its behaviour given effective field values
(§3 Step). -/
structure StepImpl where
  fields : List (String × String)
  run : List (String × String) → String → String

/-- Modelled from the spec: a pipeline step with configurable alternatives
(§3 Step, §4.3): a slot identifier, the default key naming the default
implementation, the default implementation itself, and the declared
alternative implementations. -/
structure Step where
  id : String
  defaultKey : String
  defaultImpl : StepImpl
  alternatives : List (String × StepImpl)

/-- Modelled from the spec: a per-invocation configuration overlay (§3
ConfigurationOverlay): a mapping from configurable-field or
alternative-selector identifiers to override values. -/
abbrev Overlay := List (String × String)

/-- Modelled from the spec: the per-invocation error taxonomy of the pipeline
component (§7): the overlay named a non-existent alternative. -/
inductive PipelineError where
  | unknownAlternative (slot : String) (name : String)
deriving DecidableEq

/-- Modelled from the spec: resolution of one step's effective implementation
(§4.1, §4.3): the overlay's alternative selector for the step's identifier,
defaulting to the step's own default implementation when absent or when the
selector names the default key; a selector naming an unknown alternative
fails with `UnknownAlternativeError` and never silently falls through. -/
def resolveStep (o : Overlay) (s : Step) : Except PipelineError StepImpl :=
  match alookup s.id o with
  | none => .ok s.defaultImpl
  | some sel =>
      if sel = s.defaultKey then .ok s.defaultImpl
      else
        match alookup sel s.alternatives with
        | some impl => .ok impl
        | none => .error (.unknownAlternative s.id sel)

/-- Modelled from the spec: effective configurable-field values (§4.1): the
overlay's override for a field identifier takes precedence over the step's
declared default. -/
def resolveFields (o : Overlay) (fields : List (String × String)) :
    List (String × String) :=
  fields.map fun fd => (fd.1, (alookup fd.1 o).getD fd.2)

/-- Modelled from the spec: resolve every step of the pipeline before any
step executes; the first selector naming an unknown alternative aborts the
whole invocation (§4.1). -/
def resolvePipeline (o : Overlay) : List Step → Except PipelineError (List (String × StepImpl))
  | [] => .ok []
  | s :: rest =>
      match resolveStep o s with
      | .ok impl =>
          match resolvePipeline o rest with
          | .ok l => .ok ((s.id, impl) :: l)
          | .error e => .error e
      | .error e => .error e

/-- Modelled from the spec: sequential execution of the resolved steps in
pipeline order, recording the identifiers of the steps that executed. -/
def runResolved (o : Overlay) (x : String) : List (String × StepImpl) → String × List String
  | [] => (x, [])
  | (i, impl) :: rest =>
      let y := impl.run (resolveFields o impl.fields) x
      let (z, tr) := runResolved o y rest
      (z, i :: tr)

/-- Modelled from the spec: `invoke(pipeline, input, overlay)` (§4.1).
Returns the output (or the per-invocation error) together with the trace of
executed step identifiers; when resolution fails, the trace is empty because
no step executes. -/
def invoke (p : List Step) (x : String) (o : Overlay) :
    Except PipelineError String × List String :=
  match resolvePipeline o p with
  | .error e => (.error e, [])
  | .ok l =>
      let (y, tr) := runResolved o x l
      (.ok y, tr)

/-- Modelled from the spec: the overlay is supplied fresh per invocation and
never persisted by the pipeline (§3 ConfigurationOverlay): an invocation
returns its result together with the pipeline template, unchanged. -/
def invokeSession (p : List Step) (x : String) (o : Overlay) :
    (Except PipelineError String × List String) × List Step :=
  (invoke p x o, p)

/-- Modelled from the spec: a sequence of invocations of the same pipeline,
each call threading whatever pipeline value the previous call returned. -/
def processCalls (p : List Step) : List (String × Overlay) →
    List (Except PipelineError String × List String)
  | [] => []
  | c :: rest =>
      let (r, p') := invokeSession p c.1 c.2
      r :: processCalls p' rest

/-- The overlay keys that some step of the pipeline declares, either as its
alternative-selector identifier or as a configurable field of one of its
implementations. -/
def stepKeys (s : Step) : List String :=
  s.id :: (s.defaultImpl.fields.map Prod.fst ++
    s.alternatives.flatMap fun a => a.2.fields.map Prod.fst)

/-- All overlay keys declared anywhere in the pipeline. -/
def pipelineKeys (p : List Step) : List String :=
  p.flatMap stepKeys

/-- The overlay restricted to the keys some step of the pipeline declares. -/
def restrictOverlay (p : List Step) (o : Overlay) : Overlay :=
  o.filter fun kv => decide (kv.1 ∈ pipelineKeys p)

/-- Modelled from the spec: rendering of a field type inside the format
instructions. -/
def renderFieldType : FieldType → String
  | .fstring => "string"
  | .fnumber => "number"

/-- Modelled from the spec: deterministic rendering of one schema field into
the format instructions. -/
def renderSchemaField (f : SchemaField) : String :=
  "\"" ++ f.name ++ "\": \x7b\"type\": \"" ++ renderFieldType f.ftype ++
    "\", \"description\": \"" ++ f.description ++ "\"" ++
    (if f.required then "" else ", \"optional\": true") ++ "\x7d"

/-- Modelled from the spec: `buildPrompt(schemaHandle)` (§4.2) — a
deterministic rendering of the schema into natural-language formatting
instructions embeddable in a prompt; a pure function of the schema. -/
def buildPrompt (S : Schema) : String :=
  "The output should be formatted as a JSON instance that conforms to the JSON schema below.\n\x60\x60\x60\n\x7b" ++
    String.intercalate ", " (S.fields.map renderSchemaField) ++
    "\x7d\n\x60\x60\x60\nWrap the output in \x60\x60\x60json and \x60\x60\x60 tags."

/-- Render a validated field value back to JSON text. -/
def renderValChars : Val → List Char
  | .vstr cs => '"' :: cs ++ ['"']
  | .vnum cs => cs
  | .vnull => ['n', 'u', 'l', 'l']

/-- Render one key-value pair back to JSON text. -/
def renderPairChars (p : List Char × Val) : List Char :=
  '"' :: p.1 ++ ['"', ':', ' '] ++ renderValChars p.2

/-- Render the comma-separated continuation of an object body. -/
def renderRestChars : List (List Char × Val) → List Char
  | [] => []
  | q :: qs => ',' :: ' ' :: renderPairChars q ++ renderRestChars qs

/-- Render an object body: the first pair, then the comma-separated rest. -/
def renderPairsChars : List (List Char × Val) → List Char
  | [] => []
  | p :: ps => renderPairChars p ++ renderRestChars ps

/-- Render a complete flat JSON object instance. -/
def renderInstanceChars (vals : List (List Char × Val)) : List Char :=
  '\x7b' :: renderPairsChars vals ++ ['\x7d']

/-- A text instance shaped exactly as `buildPrompt`'s rendered instructions
demand: a JSON object wrapped in a fenced block tagged as JSON. -/
def shapedInstanceText (vals : List (List Char × Val)) : String :=
  String.mk (jsonTagChars ++ '\n' :: renderInstanceChars vals ++ '\n' :: fenceChars)

/-- Characters that round-trip through a rendered JSON string literal: no
quote, no escape character, no backtick. -/
def safeChar (c : Char) : Bool := !(c == '"') && !(c == '\\') && !(c == '\x60')

/-- Values that round-trip through rendering: safe string contents, or a
well-formed number literal. -/
def safeVal : Val → Bool
  | .vstr cs => cs.all safeChar
  | .vnum [] => false
  | .vnum (c :: rest) => isNumStart c && rest.all isNumChar
  | .vnull => false

/-- A key-value pair that round-trips through rendering. -/
def safePair (p : List Char × Val) : Bool := p.1.all safeChar && safeVal p.2

/-- An instance whose every pair round-trips through rendering. -/
def safeVals (vals : List (List Char × Val)) : Bool := vals.all safePair

/-- The parsed form of a validated value: a complete decoded value. -/
def pvalOfVal : Val → PVal
  | .vstr cs => .pstr cs true
  | .vnum cs => .pnum cs true
  | .vnull => .pstr [] true

/-- The decoded object an instance should parse back to. -/
def toPObj (vals : List (List Char × Val)) : PObj :=
  vals.map fun p => (p.1, pvalOfVal p.2)

/-- An instance satisfies a schema when every declared field either decodes
type-correctly from the instance or is optional and absent. -/
def satisfies (S : Schema) (vals : List (List Char × Val)) : Bool :=
  S.fields.all fun f =>
    match alookup f.name.data (toPObj vals) with
    | some pv => typeOk f.ftype pv
    | none => !f.required

/-- Embedded from `src/docs/docs/how_to/structured_output.ipynb`
(`extract_json`): find all non-overlapping fenced JSON blocks, leftmost
first, exactly as `re.findall` matches the non-greedy pattern: at the first
opening tag, the block extends to the earliest closing fence, and scanning
resumes after it.  When an opening tag has no closing fence, no further
match exists (any later opening tag would itself contain a closing fence). -/
def findBlocksFuel : Nat → List Char → List (List Char)
  | _, [] => []
  | 0, _ :: _ => []
  | fuel + 1, c :: cs =>
      if prefixOf jsonTagChars (c :: cs) then
        match splitAtTag fenceChars ((c :: cs).drop jsonTagChars.length) with
        | some (block, rest) => block :: findBlocksFuel fuel rest
        | none => []
      else findBlocksFuel fuel cs

/-- All fenced blocks of the text; the text's own length bounds the number of
scanning steps (each step consumes at least one character). -/
def findBlocks (l : List Char) : List (List Char) := findBlocksFuel l.length l

/-- Strip leading and trailing whitespace, as Python's `str.strip` does for
the characters involved here. -/
def stripChars (cs : List Char) : List Char :=
  ((cs.dropWhile isWs).reverse.dropWhile isWs).reverse

/-- Embedded from `src/docs/docs/how_to/structured_output.ipynb`
(`extract_json`): the list comprehension decoding every matched block, with
the first decoder failure propagating as a failure of the whole list. -/
def decodeAll {α : Type} (decode : List Char → Option α) :
    List (List Char) → Option (List α)
  | [] => some []
  | b :: bs =>
      match decode (stripChars b), decodeAll decode bs with
      | some v, some vs => some (v :: vs)
      | _, _ => none

/-- Embedded from `src/docs/docs/how_to/structured_output.ipynb`
(`extract_json`): extract every fenced JSON block from the message content
and decode each stripped block; any block the decoder rejects makes the
whole call raise `ValueError` (decoding is all-or-nothing), and a message
with no fenced block yields the empty list.  The JSON decoder itself
(`json.loads`, an external library) is abstracted as the `decode`
parameter. -/
def extract_json {α : Type} (decode : List Char → Option α) (content : String) :
    Except String (List α) :=
  match decodeAll decode (findBlocks content.data) with
  | some vs => .ok vs
  | none => .error ("Failed to parse: " ++ content)



/-- The joke-prompt default of the configure notebook's two-slot example, as a
string transformer standing in for the external prompt template. -/
def jokePromptImpl : StepImpl := ⟨[], fun _ t => "Tell me a joke about " ++ t⟩

/-- The poem-prompt alternative of the configure notebook's example. -/
def poemPromptImpl : StepImpl := ⟨[], fun _ t => "Write a short poem about " ++ t⟩

/-- The anthropic default model of the configure notebook's example, as a
string transformer standing in for the external chat model. -/
def anthropicImpl : StepImpl := ⟨[], fun _ x => "anthropic:" ++ x⟩

/-- The openai alternative model of the configure notebook's example. -/
def openaiImpl : StepImpl := ⟨[], fun _ x => "openai:" ++ x⟩

/-- The prompt step with alternatives joke-prompt (default) and poem-prompt,
keyed by the slot identifier `prompt`. -/
def promptStep : Step :=
  ⟨"prompt", "joke-prompt", jokePromptImpl, [("poem-prompt", poemPromptImpl)]⟩

/-- The model step with alternatives anthropic (default) and openai, keyed by
the slot identifier `llm`. -/
def llmStep : Step :=
  ⟨"llm", "anthropic", anthropicImpl, [("openai", openaiImpl)]⟩

/-- The two-step pipeline of the configure notebook: prompt then model. -/
def jokeChain : List Step := [promptStep, llmStep]

/-- The joke schema of the structured-output notebook with both fields
required. -/
def jokeSchema : Schema :=
  ⟨[⟨"setup", .fstring, true, "The setup of the joke", none⟩,
    ⟨"punchline", .fstring, true, "The punchline of the joke", none⟩]⟩

/-- The joke schema with the optional rating field, as declared in the
structured-output notebook. -/
def jokeSchemaOpt : Schema :=
  ⟨[⟨"setup", .fstring, true, "The setup of the joke", none⟩,
    ⟨"punchline", .fstring, true, "The punchline of the joke", none⟩,
    ⟨"rating", .fnumber, false, "How funny the joke is, from 1 to 10", none⟩]⟩

/-- An overlay selector that names an alternative not declared on the step
(and is not the step's default key). -/
def badSelector (o : Overlay) (s : Step) : Prop :=
  ∃ sel, alookup s.id o = some sel ∧ sel ≠ s.defaultKey ∧
    alookup sel s.alternatives = none

/-- The implementations a step can resolve to: its default or one of its
declared alternatives. -/
def implOfStep (impl : StepImpl) (s : Step) : Prop :=
  impl = s.defaultImpl ∨ ∃ a ∈ s.alternatives, impl = a.2



/-- The decoder state after consuming one rendered key-value pair from the
`expectKey` state: a string value has been closed (so the pair is complete),
while a number value is still pending its delimiter. -/
def pairEndState (done : PObj) (p : List Char × Val) : PState :=
  match p.2 with
  | .vstr cs => .afterVal (done ++ [(p.1, .pstr cs true)])
  | .vnum cs => .inNumVal done p.1 cs
  | .vnull => .failed done

/-- Whether the opening JSON fence tag occurs anywhere in the text. -/
def hasTag : List Char → Bool
  | [] => false
  | c :: cs => prefixOf jsonTagChars (c :: cs) || hasTag cs


theorem prefixOf_refl (l : List Char) : prefixOf l l = true := by
  induction l with
  | nil => rfl
  | cons a as ih => simp [prefixOf, ih]

theorem prefixOf_append_right (l t : List Char) : prefixOf l (l ++ t) = true := by
  induction l with
  | nil => rfl
  | cons a as ih => simp [prefixOf, ih]

theorem prefixOf_trans {a b c : List Char} (h1 : prefixOf a b = true)
    (h2 : prefixOf b c = true) : prefixOf a c = true := by
  induction a generalizing b c with
  | nil => rfl
  | cons x xs ih =>
      cases b with
      | nil => simp [prefixOf] at h1
      | cons y ys =>
          cases c with
          | nil => simp [prefixOf] at h2
          | cons z zs =>
              simp only [prefixOf, Bool.and_eq_true, beq_iff_eq] at h1 h2 ⊢
              exact ⟨h1.1.trans h2.1, ih h1.2 h2.2⟩

theorem pvalLE_refl (v : PVal) : pvalLE v v = true := by
  cases v with
  | pstr cs b => cases b <;> simp [pvalLE, prefixOf_refl]
  | pnum cs b => cases b <;> simp [pvalLE, prefixOf_refl]

theorem flagLE_trans {cs cs' cs'' : List Char} {b b' b'' : Bool}
    (h1 : (if b then b' && cs == cs' else prefixOf cs cs') = true)
    (h2 : (if b' then b'' && cs' == cs'' else prefixOf cs' cs'') = true) :
    (if b then b'' && cs == cs'' else prefixOf cs cs'') = true := by
  cases b with
  | true =>
      simp only [if_true, Bool.and_eq_true, beq_iff_eq] at h1 ⊢
      obtain ⟨hb', rfl⟩ := h1
      subst hb'
      simp only [if_true, Bool.and_eq_true, beq_iff_eq] at h2
      exact h2
  | false =>
      simp only [Bool.false_eq_true, if_false] at h1 ⊢
      cases b' with
      | true =>
          simp only [if_true, Bool.and_eq_true, beq_iff_eq] at h2
          exact h2.2 ▸ h1
      | false =>
          simp only [Bool.false_eq_true, if_false] at h2
          exact prefixOf_trans h1 h2

theorem pvalLE_trans {u v w : PVal} (h1 : pvalLE u v = true)
    (h2 : pvalLE v w = true) : pvalLE u w = true := by
  cases u <;> cases v <;> cases w <;> simp only [pvalLE] at h1 h2 ⊢ <;>
    first
      | exact flagLE_trans h1 h2
      | exact h2
      | exact h1
      | exact absurd h1 (by simp)

theorem alookup_mem_of_some {κ α : Type} [DecidableEq κ] {k : κ} {v : α}
    {l : List (κ × α)} (h : alookup k l = some v) : (k, v) ∈ l := by
  induction l with
  | nil => simp [alookup] at h
  | cons p rest ih =>
      obtain ⟨k', v'⟩ := p
      simp only [alookup] at h
      split at h
      · next hk =>
          cases h
          exact hk ▸ List.mem_cons_self _ _
      · next hk => exact List.mem_cons_of_mem _ (ih h)

theorem alookup_some_of_mem {κ α : Type} [DecidableEq κ] {k : κ} {v : α}
    {l : List (κ × α)} (h : (k, v) ∈ l) : ∃ w, alookup k l = some w := by
  induction l with
  | nil => simp at h
  | cons p rest ih =>
      obtain ⟨k', v'⟩ := p
      by_cases hk : k' = k
      · exact ⟨v', by simp [alookup, hk]⟩
      · rcases List.mem_cons.mp h with heq | hmem
        · exact absurd (congrArg Prod.fst heq).symm hk
        · obtain ⟨w, hw⟩ := ih hmem
          exact ⟨w, by simp [alookup, hk, hw]⟩

theorem alookup_append_some {κ α : Type} [DecidableEq κ] {k : κ} {v : α}
    {l : List (κ × α)} (t : List (κ × α)) (h : alookup k l = some v) :
    alookup k (l ++ t) = some v := by
  induction l with
  | nil => simp [alookup] at h
  | cons p rest ih =>
      obtain ⟨k', v'⟩ := p
      simp only [alookup, List.cons_append] at h ⊢
      split at h
      · next hk => rw [if_pos hk]; exact h
      · next hk => rw [if_neg hk]; exact ih h

theorem alookup_append_none {κ α : Type} [DecidableEq κ] {k : κ}
    {l : List (κ × α)} (t : List (κ × α)) (h : alookup k l = none) :
    alookup k (l ++ t) = alookup k t := by
  induction l with
  | nil => rfl
  | cons p rest ih =>
      obtain ⟨k', v'⟩ := p
      simp only [alookup] at h
      split at h
      · cases h
      · next hk =>
          rw [List.cons_append, alookup, if_neg hk]
          exact ih h

theorem infoLE_iff {d d' : PObj} : infoLE d d' = true ↔
    ∀ k v, alookup k d = some v →
      ∃ w, alookup k d' = some w ∧ pvalLE v w = true := by
  constructor
  · intro h k v hkv
    rw [infoLE, List.all_eq_true] at h
    have hmem := alookup_mem_of_some hkv
    have hp := h (k, v) hmem
    simp only [hkv] at hp
    cases hw : alookup k d' with
    | none => rw [hw] at hp; simp at hp
    | some w =>
        rw [hw] at hp
        exact ⟨w, rfl, hp⟩
  · intro h
    rw [infoLE, List.all_eq_true]
    intro p hp
    obtain ⟨v, hv⟩ := alookup_some_of_mem hp
    obtain ⟨w, hw, hvw⟩ := h p.1 v hv
    simp [hv, hw, hvw]

theorem infoLE_refl (d : PObj) : infoLE d d = true := by
  rw [infoLE_iff]
  intro k v h
  exact ⟨v, h, pvalLE_refl v⟩

theorem infoLE_trans {d1 d2 d3 : PObj} (h1 : infoLE d1 d2 = true)
    (h2 : infoLE d2 d3 = true) : infoLE d1 d3 = true := by
  rw [infoLE_iff] at h1 h2 ⊢
  intro k v h
  obtain ⟨w, hw, hvw⟩ := h1 k v h
  obtain ⟨u, hu, hwu⟩ := h2 k w hw
  exact ⟨u, hu, pvalLE_trans hvw hwu⟩

theorem infoLE_append (d t : PObj) : infoLE d (d ++ t) = true := by
  rw [infoLE_iff]
  intro k v h
  exact ⟨v, alookup_append_some t h, pvalLE_refl v⟩

theorem infoLE_snoc {v w : PVal} (d : PObj) (k : List Char)
    (hvw : pvalLE v w = true) :
    infoLE (d ++ [(k, v)]) (d ++ [(k, w)]) = true := by
  rw [infoLE_iff]
  intro k' u h
  cases hd : alookup k' d with
  | some x =>
      have hx := alookup_append_some (t := [(k, v)]) hd
      rw [hx] at h
      cases h
      exact ⟨u, alookup_append_some [(k, w)] hd, pvalLE_refl u⟩
  | none =>
      rw [alookup_append_none _ hd] at h
      rw [alookup_append_none (t := [(k, w)]) hd]
      by_cases hk : k = k'
      · subst hk
        rw [alookup, if_pos rfl] at h ⊢
        cases h
        exact ⟨w, rfl, hvw⟩
      · rw [alookup, if_neg hk] at h
        cases h

theorem stepMono (st : PState) (c : Char) :
    infoLE (emit st) (emit (pstep st c)) = true := by
  cases st <;> simp only [pstep] <;> (repeat' split) <;> simp only [emit] <;>
    first
      | exact infoLE_refl _
      | exact infoLE_append _ _
      | (apply infoLE_snoc
         simp [pvalLE, prefixOf_append_right, prefixOf_refl])

theorem foldMono (cs : List Char) (st : PState) :
    infoLE (emit st) (emit (cs.foldl pstep st)) = true := by
  induction cs generalizing st with
  | nil => exact infoLE_refl _
  | cons c cs ih =>
      rw [List.foldl_cons]
      exact infoLE_trans (stepMono st c) (ih (pstep st c))

theorem feedChunkMono (st : PState) (chunk : String) :
    infoLE (emit st) (emit (feedChunk st chunk)) = true :=
  foldMono chunk.data st


theorem extractIncrementalFrom_length (st : PState) (cs : List String) :
    (extractIncrementalFrom st cs).length = cs.length := by
  induction cs generalizing st with
  | nil => rfl
  | cons c cs ih => simp [extractIncrementalFrom, ih]

theorem extractIncrementalFrom_head_mono (cs : List String) (st : PState)
    (j : Nat) (hj : j < (extractIncrementalFrom st cs).length) :
    infoLE (emit st) ((extractIncrementalFrom st cs).get ⟨j, hj⟩) = true := by
  induction cs generalizing st j with
  | nil => simp [extractIncrementalFrom] at hj
  | cons c cs ih =>
      cases j with
      | zero => exact feedChunkMono st c
      | succ j =>
          have hj' : j < (extractIncrementalFrom (feedChunk st c) cs).length := by
            simpa [extractIncrementalFrom] using hj
          exact infoLE_trans (feedChunkMono st c) (ih (feedChunk st c) j hj')

theorem extractIncrementalFrom_mono (cs : List String) (st : PState)
    (i j : Nat) (hij : i ≤ j) (hj : j < (extractIncrementalFrom st cs).length) :
    infoLE ((extractIncrementalFrom st cs).get ⟨i, Nat.lt_of_le_of_lt hij hj⟩)
      ((extractIncrementalFrom st cs).get ⟨j, hj⟩) = true := by
  induction cs generalizing st i j with
  | nil => simp [extractIncrementalFrom] at hj
  | cons c cs ih =>
      cases i with
      | zero =>
          cases j with
          | zero => exact infoLE_refl _
          | succ j =>
              have hj' : j < (extractIncrementalFrom (feedChunk st c) cs).length := by
                simpa [extractIncrementalFrom] using hj
              exact extractIncrementalFrom_head_mono cs (feedChunk st c) j hj'
      | succ i =>
          cases j with
          | zero => exact absurd hij (by omega)
          | succ j =>
              have hj' : j < (extractIncrementalFrom (feedChunk st c) cs).length := by
                simpa [extractIncrementalFrom] using hj
              exact ih (feedChunk st c) i j (Nat.le_of_succ_le_succ hij) hj'

theorem resolveStep_default (o : Overlay) (s : Step)
    (h : alookup s.id o = none) : resolveStep o s = .ok s.defaultImpl := by
  simp [resolveStep, h]

theorem resolveStep_congr (o o' : Overlay) (s : Step)
    (h : alookup s.id o = alookup s.id o') :
    resolveStep o s = resolveStep o' s := by
  simp only [resolveStep, h]

theorem resolveStep_bad {o : Overlay} {s : Step} (h : badSelector o s) :
    ∃ sel, resolveStep o s = .error (.unknownAlternative s.id sel) := by
  obtain ⟨sel, h1, h2, h3⟩ := h
  exact ⟨sel, by simp [resolveStep, h1, h2, h3]⟩

theorem resolvePipeline_error {o : Overlay} {p : List Step}
    (h : ∃ s ∈ p, badSelector o s) :
    ∃ slot name, resolvePipeline o p = .error (.unknownAlternative slot name) := by
  induction p with
  | nil => simp at h
  | cons s rest ih =>
      obtain ⟨s0, hs0, hbad⟩ := h
      cases hres : resolveStep o s with
      | error e =>
          obtain ⟨slot, name⟩ := e
          exact ⟨slot, name, by simp [resolvePipeline, hres]⟩
      | ok impl =>
          rcases List.mem_cons.mp hs0 with rfl | hmem
          · obtain ⟨sel, hr⟩ := resolveStep_bad hbad
            rw [hres] at hr
            cases hr
          · obtain ⟨slot, name, hrp⟩ := ih ⟨s0, hmem, hbad⟩
            exact ⟨slot, name, by simp [resolvePipeline, hres, hrp]⟩

/-- C1: for every pipeline with configurable alternative slots, the effective
step for each slot is resolved per invocation solely from the overlay key for
that slot's identifier, with the default always selected when the overlay
supplies no value for that slot, regardless of alternative declaration order
(the first two conjuncts quantify over arbitrary steps, hence over arbitrary
alternative lists in any order); for the two-step joke pipeline, overlay `{}`
selects anthropic + joke-prompt, overlay `{llm: openai}` selects openai +
joke-prompt, and overlay `{llm: openai, prompt: poem-prompt}` selects both
alternatives. -/
theorem claim1_alternative_selection :
    (∀ (s : Step) (o : Overlay), alookup s.id o = none →
        resolveStep o s = .ok s.defaultImpl) ∧
    (∀ (s : Step) (o o' : Overlay), alookup s.id o = alookup s.id o' →
        resolveStep o s = resolveStep o' s) ∧
    invoke jokeChain "bears" [] =
      (.ok "anthropic:Tell me a joke about bears", ["prompt", "llm"]) ∧
    invoke jokeChain "bears" [("llm", "openai")] =
      (.ok "openai:Tell me a joke about bears", ["prompt", "llm"]) ∧
    invoke jokeChain "bears" [("llm", "openai"), ("prompt", "poem-prompt")] =
      (.ok "openai:Write a short poem about bears", ["prompt", "llm"]) := by
  refine ⟨fun s o h => resolveStep_default o s h,
    fun s o o' h => resolveStep_congr o o' s h, ?_, ?_, ?_⟩ <;> rfl

/-- Witness for C1: the default is selected at a concrete overlay that
supplies no value for the slot. -/
theorem claim1_witness :
    resolveStep [("other", "x")] llmStep = .ok llmStep.defaultImpl :=
  claim1_alternative_selection.1 llmStep [("other", "x")] (by rfl)

/-- C2: for every pipeline, input and overlay whose alternative selector for
some step's slot names an alternative not declared on that step, invoke fails
with UnknownAlternativeError — never silently falling back to the default —
and no step of the pipeline executes (the execution trace is empty). -/
theorem claim2_unknown_alternative (p : List Step) (x : String) (o : Overlay)
    (h : ∃ s ∈ p, badSelector o s) :
    ∃ slot name, invoke p x o = (.error (.unknownAlternative slot name), []) := by
  obtain ⟨slot, name, hrp⟩ := resolvePipeline_error h
  exact ⟨slot, name, by simp [invoke, hrp]⟩

/-- Witness for C2: a concrete overlay naming the undeclared alternative
`gpt5` for the llm slot aborts the invocation with an empty trace. -/
theorem claim2_witness :
    ∃ slot name, invoke jokeChain "bears" [("llm", "gpt5")] =
      (.error (.unknownAlternative slot name), []) :=
  claim2_unknown_alternative jokeChain "bears" [("llm", "gpt5")]
    ⟨llmStep, by simp [jokeChain], "gpt5", by rfl, by decide, by rfl⟩

theorem alookup_restrict {p : List Step} {o : Overlay} {k : String}
    (hk : k ∈ pipelineKeys p) :
    alookup k (restrictOverlay p o) = alookup k o := by
  induction o with
  | nil => rfl
  | cons kv rest ih =>
      obtain ⟨k', v⟩ := kv
      by_cases hkk : k' = k
      · subst hkk
        simp [restrictOverlay, List.filter_cons, hk, alookup]
      · by_cases hmem : k' ∈ pipelineKeys p
        · simp only [restrictOverlay, List.filter_cons, decide_eq_true hmem,
            alookup, if_neg hkk]
          exact ih
        · simp only [restrictOverlay, List.filter_cons, alookup, if_neg hkk,
            decide_eq_false hmem]
          exact ih

theorem id_mem_stepKeys (s : Step) : s.id ∈ stepKeys s := by
  simp [stepKeys]

theorem fields_mem_stepKeys {impl : StepImpl} {s : Step}
    (h : implOfStep impl s) :
    ∀ fd ∈ impl.fields, fd.1 ∈ stepKeys s := by
  intro fd hfd
  rcases h with rfl | ⟨a, ha, rfl⟩
  · simp only [stepKeys, List.mem_cons, List.mem_append]
    exact Or.inr (Or.inl (List.mem_map_of_mem _ hfd))
  · simp only [stepKeys, List.mem_cons, List.mem_append]
    refine Or.inr (Or.inr ?_)
    rw [List.mem_flatMap]
    exact ⟨a, ha, List.mem_map_of_mem _ hfd⟩

theorem resolveStep_implOfStep {o : Overlay} {s : Step} {impl : StepImpl}
    (h : resolveStep o s = .ok impl) : implOfStep impl s := by
  rw [resolveStep] at h
  split at h
  · cases h
    exact Or.inl rfl
  · next sel hsel =>
      split at h
      · cases h
        exact Or.inl rfl
      · split at h
        · next i hi =>
            have hii : i = impl := Except.ok.inj h
            subst hii
            exact Or.inr ⟨(sel, i), alookup_mem_of_some hi, rfl⟩
        · cases h

theorem resolvePipeline_congr {o o' : Overlay} {p : List Step}
    (h : ∀ k ∈ pipelineKeys p, alookup k o = alookup k o') :
    resolvePipeline o p = resolvePipeline o' p := by
  induction p with
  | nil => rfl
  | cons s rest ih =>
      have hidmem : s.id ∈ pipelineKeys (s :: rest) := by
        rw [pipelineKeys, List.mem_flatMap]
        exact ⟨s, List.mem_cons_self s rest, id_mem_stepKeys s⟩
      have hid : alookup s.id o = alookup s.id o' := h s.id hidmem
      have hrest : ∀ k ∈ pipelineKeys rest, alookup k o = alookup k o' := by
        intro k hk
        refine h k ?_
        simp only [pipelineKeys, List.flatMap_cons, List.mem_append]
        right
        simpa [pipelineKeys] using hk
      simp only [resolvePipeline, resolveStep_congr o o' s hid, ih hrest]

theorem resolvePipeline_provenance {o : Overlay} {p : List Step}
    {l : List (String × StepImpl)} (h : resolvePipeline o p = .ok l) :
    ∀ pr ∈ l, ∃ s ∈ p, implOfStep pr.2 s := by
  induction p generalizing l with
  | nil =>
      cases h
      simp
  | cons s rest ih =>
      rw [resolvePipeline] at h
      cases hres : resolveStep o s with
      | error e => rw [hres] at h; cases h
      | ok impl =>
          rw [hres] at h
          cases hrp : resolvePipeline o rest with
          | error e => rw [hrp] at h; cases h
          | ok l' =>
              rw [hrp] at h
              cases h
              intro pr hpr
              rcases List.mem_cons.mp hpr with rfl | hmem
              · exact ⟨s, List.mem_cons_self s rest, resolveStep_implOfStep hres⟩
              · obtain ⟨s', hs', hi⟩ := ih hrp pr hmem
                exact ⟨s', List.mem_cons_of_mem _ hs', hi⟩

theorem resolveFields_congr {o o' : Overlay} {fields : List (String × String)}
    (h : ∀ fd ∈ fields, alookup fd.1 o = alookup fd.1 o') :
    resolveFields o fields = resolveFields o' fields := by
  simp only [resolveFields]
  exact List.map_congr_left fun fd hfd => by rw [h fd hfd]

theorem runResolved_congr {o o' : Overlay} {p : List Step}
    (h : ∀ k ∈ pipelineKeys p, alookup k o = alookup k o') :
    ∀ (l : List (String × StepImpl)),
      (∀ pr ∈ l, ∃ s ∈ p, implOfStep pr.2 s) →
      ∀ x, runResolved o x l = runResolved o' x l := by
  intro l
  induction l with
  | nil =>
      intro _ x
      rfl
  | cons pr rest ih =>
      intro hprov x
      obtain ⟨i, impl⟩ := pr
      obtain ⟨s, hs, himpl⟩ := hprov (i, impl) (List.mem_cons_self _ _)
      have hfields : ∀ fd ∈ impl.fields, alookup fd.1 o = alookup fd.1 o' := by
        intro fd hfd
        refine h fd.1 ?_
        rw [pipelineKeys, List.mem_flatMap]
        exact ⟨s, hs, fields_mem_stepKeys himpl fd hfd⟩
      simp only [runResolved, resolveFields_congr hfields]
      rw [ih (fun q hq => hprov q (List.mem_cons_of_mem _ hq)) _]

theorem invoke_agree {o o' : Overlay} (p : List Step) (x : String)
    (h : ∀ k ∈ pipelineKeys p, alookup k o = alookup k o') :
    invoke p x o = invoke p x o' := by
  rw [invoke, invoke, resolvePipeline_congr h]
  cases hrp : resolvePipeline o' p with
  | error e => rfl
  | ok l =>
      have hprov := resolvePipeline_provenance
        ((resolvePipeline_congr h).trans hrp)
      have hr := runResolved_congr h l hprov x
      simp only [hr]

/-- C7: overlay keys that do not match any step's declared configurable field
or alternative-selector identifier are ignored silently: invoke behaves
exactly as it would under the overlay restricted to the pipeline's own keys,
and in particular succeeds whenever the restricted overlay does. -/
theorem claim7_unknown_keys_ignored (p : List Step) (x : String) (o : Overlay) :
    invoke p x o = invoke p x (restrictOverlay p o) ∧
    (∀ r tr, invoke p x (restrictOverlay p o) = (.ok r, tr) →
      invoke p x o = (.ok r, tr)) := by
  have h : invoke p x o = invoke p x (restrictOverlay p o) :=
    invoke_agree p x fun k hk => (alookup_restrict hk).symm
  exact ⟨h, fun r tr hr => h.trans hr⟩

/-- Witness for C7: an overlay key matching no declared identifier leaves the
concrete two-step pipeline's behaviour unchanged. -/
theorem claim7_witness :
    invoke jokeChain "bears" [("unrelated", "zzz")] =
      invoke jokeChain "bears"
        (restrictOverlay jokeChain [("unrelated", "zzz")]) :=
  (claim7_unknown_keys_ignored jokeChain "bears" [("unrelated", "zzz")]).1

/-- C9: resolution is deterministic and keeps no state across invocations:
a sequence of invocations of the same pipeline yields exactly the per-call
results of `invoke` on the original pipeline template (the overlay is
supplied per call and never persisted), and two invocations with identical
arguments yield identical outputs. -/
theorem claim9_stateless_determinism (p : List Step)
    (calls : List (String × Overlay)) :
    processCalls p calls = calls.map (fun c => invoke p c.1 c.2) ∧
    (∀ x o, processCalls p [(x, o), (x, o)] = [invoke p x o, invoke p x o]) := by
  constructor
  · induction calls with
    | nil => rfl
    | cons c rest ih => simp [processCalls, invokeSession, ih]
  · intro x o
    rfl

/-- C3: for every schema handle and every chunk sequence (hence every finite
prefix of a longer stream), the sequence produced by extractIncremental is
monotonically increasing in information: once a key is emitted in some
element, every later element contains that key, whose value is only ever
extended or completed under the same key, never retracted to empty or
missing (the `infoLE` order). -/
theorem claim3_extractIncremental_monotone (S : Schema) (chunks : List String)
    (i j : Nat) (hij : i ≤ j) (hj : j < (extractIncremental S chunks).length) :
    infoLE ((extractIncremental S chunks).get ⟨i, Nat.lt_of_le_of_lt hij hj⟩)
      ((extractIncremental S chunks).get ⟨j, hj⟩) = true :=
  extractIncrementalFrom_mono chunks PState.start i j hij hj

/-- Witness for C3 at the notebook's streamed joke: the partially streamed
setup field is only ever extended. -/
theorem claim3_witness :
    infoLE ((extractIncremental jokeSchema
        ["\x7b\"setup\": \"Why", " was the cat\"\x7d"]).get ⟨0, by decide⟩)
      ((extractIncremental jokeSchema
        ["\x7b\"setup\": \"Why", " was the cat\"\x7d"]).get ⟨1, by decide⟩) = true :=
  claim3_extractIncremental_monotone jokeSchema
    ["\x7b\"setup\": \"Why", " was the cat\"\x7d"] 0 1 (by decide) (by decide)

theorem validateFields_error_of_missing {obj : PObj} {fs : List SchemaField}
    {f : SchemaField} (hf : f ∈ fs) (hreq : f.required = true)
    (habs : alookup f.name.data obj = none) :
    ∃ e, validateFields obj fs = .error e := by
  induction fs with
  | nil => simp at hf
  | cons g rest ih =>
      rcases List.mem_cons.mp hf with rfl | hmem
      · rw [validateFields, habs, if_pos hreq]
        exact ⟨.missingField f.name, rfl⟩
      · rw [validateFields]
        cases hg : alookup g.name.data obj with
        | some pv =>
            by_cases hty : typeOk g.ftype pv = true
            · obtain ⟨e, he⟩ := ih hmem
              exact ⟨e, by simp [hty, he]⟩
            · exact ⟨.typeMismatch g.name, by simp [hty]⟩
        | none =>
            by_cases hgreq : g.required = true
            · exact ⟨.missingField g.name, by simp [hgreq]⟩
            · obtain ⟨e, he⟩ := ih hmem
              exact ⟨e, by simp [hgreq, he]⟩

theorem validate_error_of_missing {obj : PObj} {S : Schema} {f : SchemaField}
    (hf : f ∈ S.fields) (hreq : f.required = true)
    (habs : alookup f.name.data obj = none) :
    ∃ e, validate S obj = .error e := by
  obtain ⟨e, he⟩ := validateFields_error_of_missing hf hreq habs
  exact ⟨e, by rw [validate, he]⟩

/-- C4: for every declared schema and every raw text whose decoded value
lacks a required field of the schema — here, a message with no direct
machine-readable payload whose fenced block decodes to an object missing the
field — extract returns the failure variant carrying the raw text, never a
successful partial result. -/
theorem claim4_missing_required_fails (S : Schema) (msg : Message)
    (f : SchemaField) (obj : PObj)
    (hf : f ∈ S.fields) (hreq : f.required = true)
    (hdirect : msg.toolCallArgs = none)
    (hblock : (firstFencedBlock msg.content.data).bind parseObjChars = some obj)
    (habs : alookup f.name.data obj = none) :
    extractCore S msg = .failure msg.content bothStagesFailed := by
  obtain ⟨e, he⟩ := validate_error_of_missing hf hreq habs
  rw [extractCore]
  have hA : stageDirect S msg = none := by
    rw [stageDirect, hdirect]
  have hB : stageFenced S msg = none := by
    rw [stageFenced]
    cases hfb : firstFencedBlock msg.content.data with
    | none => rfl
    | some block =>
        rw [hfb] at hblock
        rw [Option.some_bind] at hblock
        simp [hblock, he, Except.toOption]
  rw [hA, hB]

/-- Witness for C4 at the notebook's joke schema: raw text carrying only the
setup field yields the failure variant, not a partial success. -/
theorem claim4_witness :
    extractCore jokeSchema
      ⟨"\x60\x60\x60json\n\x7b\"setup\": \"hi\"\x7d\n\x60\x60\x60", none⟩ =
      .failure "\x60\x60\x60json\n\x7b\"setup\": \"hi\"\x7d\n\x60\x60\x60"
        bothStagesFailed :=
  claim4_missing_required_fails jokeSchema
    ⟨"\x60\x60\x60json\n\x7b\"setup\": \"hi\"\x7d\n\x60\x60\x60", none⟩
    ⟨"punchline", .fstring, true, "The punchline of the joke", none⟩
    [("setup".data, .pstr "hi".data true)]
    (by decide) rfl rfl (by rfl) (by rfl)

/-- C5: extraction attempts its stages in order — (a) direct structured
decoding of the machine-readable payload, (b) decoding of the first fenced
structured-data block, (c) a failure result carrying the raw text and a
description of what failed — and with raw mode requested it never raises
(always returns data), while without raw mode a typed error is raised. -/
theorem claim5_stage_order (S : Schema) (msg : Message) :
    (∀ v, stageDirect S msg = some v → extractCore S msg = .success v) ∧
    (∀ v, stageDirect S msg = none → stageFenced S msg = some v →
        extractCore S msg = .success v) ∧
    (stageDirect S msg = none → stageFenced S msg = none →
        extractCore S msg = .failure msg.content bothStagesFailed) ∧
    (∀ e, extract S msg true ≠ .error e) ∧
    (stageDirect S msg = none → stageFenced S msg = none →
        extract S msg false =
          .error (.extractionFailure msg.content bothStagesFailed)) := by
  refine ⟨?_, ?_, ?_, ?_, ?_⟩
  · intro v hv
    rw [extractCore, hv]
  · intro v ha hb
    rw [extractCore, ha, hb]
  · intro ha hb
    rw [extractCore, ha, hb]
  · intro e
    rw [extract]
    cases extractCore S msg with
    | success v => simp
    | failure raw stage => simp
  · intro ha hb
    rw [extract, extractCore, ha, hb]
    rfl

/-- Witness for C5: a plain message with no payload and no fenced block
yields the failure result as data under raw mode would, and the typed error
without raw mode. -/
theorem claim5_witness :
    extract jokeSchema ⟨"hello", none⟩ false =
      .error (.extractionFailure "hello" bothStagesFailed) :=
  (claim5_stage_order jokeSchema ⟨"hello", none⟩).2.2.2.2 (by rfl) (by rfl)

theorem validateFields_lookup {obj : PObj} {fs : List SchemaField}
    {l : List (List Char × Val)}
    (hnd : (fs.map fun f => f.name).Nodup)
    (hok : validateFields obj fs = .ok l) {f : SchemaField} (hf : f ∈ fs) :
    alookup f.name.data l = some
      (match alookup f.name.data obj with
       | some pv => toVal pv
       | none => f.default.getD .vnull) := by
  induction fs generalizing l with
  | nil => simp at hf
  | cons g rest ih =>
      rw [List.map_cons, List.nodup_cons] at hnd
      obtain ⟨hgnotin, hndrest⟩ := hnd
      rcases List.mem_cons.mp hf with rfl | hmem
      · cases hg : alookup f.name.data obj with
        | some pv =>
            by_cases hty : typeOk f.ftype pv = true
            · cases hrest : validateFields obj rest with
              | ok l2 =>
                  simp only [validateFields, hg, hty, if_true, hrest] at hok
                  cases hok
                  simp [alookup, hg]
              | error e =>
                  simp only [validateFields, hg, hty, if_true, hrest] at hok
                  cases hok
            · simp only [validateFields, hg, hty, if_false] at hok
              cases hok
        | none =>
            have hreq : ¬ f.required = true := by
              intro hr
              simp only [validateFields, hg, hr, if_true] at hok
              cases hok
            cases hrest : validateFields obj rest with
            | ok l2 =>
                simp only [validateFields, hg, hreq, if_false, hrest] at hok
                cases hok
                simp [alookup, hg]
            | error e =>
                simp only [validateFields, hg, hreq, if_false, hrest] at hok
                cases hok
      · have hne : g.name.data ≠ f.name.data := by
          intro hd
          apply hgnotin
          have heq : g.name = f.name := congrArg String.mk hd
          rw [heq]
          exact List.mem_map_of_mem _ hmem
        cases hg : alookup g.name.data obj with
        | some pv =>
            by_cases hty : typeOk g.ftype pv = true
            · cases hrest : validateFields obj rest with
              | ok l2 =>
                  simp only [validateFields, hg, hty, if_true, hrest] at hok
                  cases hok
                  rw [alookup, if_neg hne]
                  exact ih hndrest hrest hmem
              | error e =>
                  simp only [validateFields, hg, hty, if_true, hrest] at hok
                  cases hok
            · simp only [validateFields, hg, hty, if_false] at hok
              cases hok
        | none =>
            have hreq : ¬ g.required = true := by
              intro hr
              simp only [validateFields, hg, hr, if_true] at hok
              cases hok
            cases hrest : validateFields obj rest with
            | ok l2 =>
                simp only [validateFields, hg, hreq, if_false, hrest] at hok
                cases hok
                rw [alookup, if_neg hne]
                exact ih hndrest hrest hmem
            | error e =>
                simp only [validateFields, hg, hreq, if_false, hrest] at hok
                cases hok

/-- C6: for every well-formed schema and every decoded value in which a
declared optional field is absent, a successful validation fills that field
with its declared default, or with the explicit absent marker `Val.vnull`
when no default is declared — never a silent coercion to zero or the empty
string. -/
theorem claim6_optional_default (S : Schema) (obj : PObj) (f : SchemaField)
    (v : Validated) (hwf : schemaWF S = true) (hf : f ∈ S.fields)
    (hopt : f.required = false) (habs : alookup f.name.data obj = none)
    (hok : validate S obj = .ok v) :
    alookup f.name.data v.fields = some (f.default.getD .vnull) ∧
    (f.default = none → alookup f.name.data v.fields = some .vnull) := by
  have hnd : (S.fields.map fun f => f.name).Nodup := by
    simpa [schemaWF] using hwf
  rw [validate] at hok
  cases hvf : validateFields obj S.fields with
  | error e => rw [hvf] at hok; cases hok
  | ok l =>
      rw [hvf] at hok
      cases hok
      have := validateFields_lookup hnd hvf hf
      rw [habs] at this
      refine ⟨this, fun hdef => ?_⟩
      rw [hdef] at this
      exact this

/-- Witness for C6: the optional rating field of the notebook's joke schema,
absent from the decoded value, is filled with the explicit absent marker. -/
theorem claim6_witness :
    alookup "rating".data (Validated.mk
      [("setup".data, .vstr "hi".data), ("punchline".data, .vstr "ha".data),
       ("rating".data, .vnull)] []).fields = some Val.vnull :=
  (claim6_optional_default jokeSchemaOpt
    [("setup".data, .pstr "hi".data true), ("punchline".data, .pstr "ha".data true)]
    ⟨"rating", .fnumber, false, "How funny the joke is, from 1 to 10", none⟩
    ⟨[("setup".data, .vstr "hi".data), ("punchline".data, .vstr "ha".data),
      ("rating".data, .vnull)], []⟩
    (by decide) (by decide) rfl rfl (by decide)).2 rfl

theorem hasTag_false_findBlocksFuel {l : List Char} (h : hasTag l = false) :
    ∀ fuel, findBlocksFuel fuel l = [] := by
  induction l with
  | nil => intro fuel; cases fuel <;> rfl
  | cons c cs ih =>
      intro fuel
      rw [hasTag, Bool.or_eq_false_iff] at h
      cases fuel with
      | zero => rfl
      | succ f =>
          rw [findBlocksFuel, if_neg (by simp [h.1])]
          exact ih h.2 f

theorem hasTag_false_findBlocks {l : List Char} (h : hasTag l = false) :
    findBlocks l = [] :=
  hasTag_false_findBlocksFuel h l.length

theorem decodeAll_none {α : Type} {decode : List Char → Option α}
    {bs : List (List Char)} {b : List Char} (hb : b ∈ bs)
    (hfail : decode (stripChars b) = none) :
    decodeAll decode bs = none := by
  induction bs with
  | nil => simp at hb
  | cons a rest ih =>
      rcases List.mem_cons.mp hb with rfl | hmem
      · rw [decodeAll, hfail]
      · rw [decodeAll, ih hmem]
        cases decode (stripChars a) <;> rfl

/-- C10: the custom fenced-block parser returns the decoded payloads of all
non-overlapping fenced JSON blocks (not only the first, third conjunct),
returns the empty list rather than failing when no fenced block is present
(first conjunct), and raises ValueError when any matched block fails to
decode — decoding is all-or-nothing across blocks (second conjunct). -/
theorem claim10_extract_json {α : Type} (decode : List Char → Option α)
    (content : String) :
    (hasTag content.data = false → extract_json decode content = .ok []) ∧
    (∀ b ∈ findBlocks content.data, decode (stripChars b) = none →
        extract_json decode content =
          .error ("Failed to parse: " ++ content)) ∧
    (∀ vs, decodeAll decode (findBlocks content.data) = some vs →
        extract_json decode content = .ok vs) := by
  refine ⟨?_, ?_, ?_⟩
  · intro h
    rw [extract_json, hasTag_false_findBlocks h]
    rfl
  · intro b hb hfail
    rw [extract_json, decodeAll_none hb hfail]
  · intro vs h
    rw [extract_json, h]

/-- Witness for C10: a message with two fenced blocks yields both decoded
payloads, in order. -/
theorem claim10_witness :
    extract_json parseObjChars
      "a \x60\x60\x60json \x7b\"a\": \"x\"\x7d \x60\x60\x60 b \x60\x60\x60json \x7b\"b\": \"y\"\x7d \x60\x60\x60 c" =
      .ok [[("a".data, .pstr "x".data true)], [("b".data, .pstr "y".data true)]] :=
  (claim10_extract_json parseObjChars
    "a \x60\x60\x60json \x7b\"a\": \"x\"\x7d \x60\x60\x60 b \x60\x60\x60json \x7b\"b\": \"y\"\x7d \x60\x60\x60 c").2.2
    [[("a".data, .pstr "x".data true)], [("b".data, .pstr "y".data true)]]
    (by decide)

theorem safeChar_ne {c : Char} (h : safeChar c = true) :
    (c ≠ '"' ∧ c ≠ '\\') ∧ c ≠ '\x60' := by
  simpa [safeChar] using h

theorem feedKey {cs : List Char} (h : ∀ c ∈ cs, safeChar c = true)
    (done : PObj) (kacc : List Char) :
    cs.foldl pstep (.inKey done kacc) = .inKey done (kacc ++ cs) := by
  induction cs generalizing kacc with
  | nil => simp
  | cons c rest ih =>
      have hc := safeChar_ne (h c (List.mem_cons_self _ _))
      rw [List.foldl_cons]
      have hstep : pstep (.inKey done kacc) c = .inKey done (kacc ++ [c]) := by
        simp only [pstep, if_neg hc.1.1]
      rw [hstep, ih (fun c hc => h c (List.mem_cons_of_mem _ hc))]
      simp

theorem feedStr {cs : List Char} (h : ∀ c ∈ cs, safeChar c = true)
    (done : PObj) (k vacc : List Char) :
    cs.foldl pstep (.inStrVal done k vacc false) =
      .inStrVal done k (vacc ++ cs) false := by
  induction cs generalizing vacc with
  | nil => simp
  | cons c rest ih =>
      have hc := safeChar_ne (h c (List.mem_cons_self _ _))
      rw [List.foldl_cons]
      have hstep : pstep (.inStrVal done k vacc false) c =
          .inStrVal done k (vacc ++ [c]) false := by
        simp [pstep, hc.1.1, hc.1.2]
      rw [hstep, ih (fun c hc => h c (List.mem_cons_of_mem _ hc))]
      simp

theorem feedNum {cs : List Char} (h : ∀ c ∈ cs, isNumChar c = true)
    (done : PObj) (k vacc : List Char) :
    cs.foldl pstep (.inNumVal done k vacc) = .inNumVal done k (vacc ++ cs) := by
  induction cs generalizing vacc with
  | nil => simp
  | cons c rest ih =>
      have hc := h c (List.mem_cons_self _ _)
      rw [List.foldl_cons]
      have hstep : pstep (.inNumVal done k vacc) c =
          .inNumVal done k (vacc ++ [c]) := by
        simp only [pstep, if_pos hc]
      rw [hstep, ih (fun c hc => h c (List.mem_cons_of_mem _ hc))]
      simp

theorem feedPair {p : List Char × Val} (hp : safePair p = true) (done : PObj) :
    (renderPairChars p).foldl pstep (.expectKey done) = pairEndState done p := by
  obtain ⟨k, v⟩ := p
  rw [safePair, Bool.and_eq_true] at hp
  obtain ⟨hk, hv⟩ := hp
  rw [List.all_eq_true] at hk
  have hre : renderPairChars (k, v) =
      ('"' :: k) ++ (['"', ':', ' '] ++ renderValChars v) := by
    simp [renderPairChars]
  rw [hre, List.foldl_append, List.foldl_cons]
  have h1 : pstep (.expectKey done) '"' = .inKey done [] := rfl
  rw [h1, feedKey hk, List.nil_append, List.foldl_append]
  have h2 : List.foldl pstep (.inKey done k) ['"', ':', ' '] =
      .expectVal done k := rfl
  rw [h2]
  cases v with
  | vstr cs =>
      simp only [safeVal, List.all_eq_true] at hv
      have hre2 : renderValChars (Val.vstr cs) = ('"' :: cs) ++ ['"'] := by
        simp [renderValChars]
      rw [hre2, List.foldl_append]
      have h3 : pstep (.expectVal done k) '"' = .inStrVal done k [] false := rfl
      have hinner : List.foldl pstep (.expectVal done k) ('"' :: cs) =
          .inStrVal done k cs false := by
        rw [List.foldl_cons, h3, feedStr hv, List.nil_append]
      rw [hinner]
      have h4 : List.foldl pstep (.inStrVal done k cs false) ['"'] =
          .afterVal (done ++ [(k, .pstr cs true)]) := rfl
      rw [h4]
      rfl
  | vnum cs =>
      cases cs with
      | nil => simp [safeVal] at hv
      | cons c0 rest0 =>
          simp only [safeVal, Bool.and_eq_true, List.all_eq_true] at hv
          obtain ⟨hc0, hrest0⟩ := hv
          have hre2 : renderValChars (Val.vnum (c0 :: rest0)) = c0 :: rest0 := rfl
          rw [hre2, List.foldl_cons]
          have hc0q : c0 ≠ '"' := by
            intro hq
            rw [hq] at hc0
            exact absurd hc0 (by decide)
          have h3 : pstep (.expectVal done k) c0 = .inNumVal done k [c0] := by
            simp only [pstep, if_neg hc0q, if_pos hc0]
          rw [h3, feedNum hrest0]
          rfl
  | vnull => simp [safeVal] at hv

theorem pairEnd_comma {p : List Char × Val} (hp : safePair p = true)
    (done : PObj) :
    pstep (pairEndState done p) ',' =
      .expectKey (done ++ [(p.1, pvalOfVal p.2)]) := by
  obtain ⟨k, v⟩ := p
  cases v with
  | vstr cs => rfl
  | vnum cs => rfl
  | vnull => simp [safePair, safeVal] at hp

theorem pairEnd_close {p : List Char × Val} (hp : safePair p = true)
    (done : PObj) :
    pstep (pairEndState done p) '\x7d' =
      .closed (done ++ [(p.1, pvalOfVal p.2)]) := by
  obtain ⟨k, v⟩ := p
  cases v with
  | vstr cs => rfl
  | vnum cs => rfl
  | vnull => simp [safePair, safeVal] at hp

theorem feedBody {ps : List (List Char × Val)} (hps : safeVals ps = true) :
    ∀ {p : List Char × Val}, safePair p = true → ∀ (done : PObj),
      (renderRestChars ps ++ ['\x7d']).foldl pstep (pairEndState done p) =
        .closed (done ++ [(p.1, pvalOfVal p.2)] ++ toPObj ps) := by
  induction ps with
  | nil =>
      intro p hp done
      rw [renderRestChars]
      simp only [List.nil_append, List.foldl_cons, List.foldl_nil]
      rw [pairEnd_close hp]
      simp [toPObj]
  | cons q qs ih =>
      intro p hp done
      rw [safeVals, List.all_cons, Bool.and_eq_true] at hps
      obtain ⟨hq, hqs⟩ := hps
      rw [renderRestChars]
      have hassoc : (',' :: ' ' :: renderPairChars q ++ renderRestChars qs) ++
          ['\x7d'] = ',' :: ' ' ::
            (renderPairChars q ++ (renderRestChars qs ++ ['\x7d'])) := by
        simp
      rw [hassoc, List.foldl_cons, pairEnd_comma hp, List.foldl_cons]
      have hws : pstep (.expectKey (done ++ [(p.1, pvalOfVal p.2)])) ' ' =
          .expectKey (done ++ [(p.1, pvalOfVal p.2)]) := rfl
      rw [hws, List.foldl_append, feedPair hq, ih hqs hq]
      simp [toPObj]

theorem parse_render {vals : List (List Char × Val)} (h : safeVals vals = true) :
    parseObjChars (renderInstanceChars vals) = some (toPObj vals) := by
  cases vals with
  | nil => rfl
  | cons p ps =>
      rw [safeVals, List.all_cons, Bool.and_eq_true] at h
      obtain ⟨hp, hps⟩ := h
      rw [parseObjChars]
      have hlist : renderInstanceChars (p :: ps) =
          '\x7b' :: (renderPairChars p ++ (renderRestChars ps ++ ['\x7d'])) := by
        rw [renderInstanceChars, renderPairsChars]
        simp
      rw [hlist, List.foldl_cons]
      have h0 : pstep PState.start '\x7b' = .expectKey [] := rfl
      rw [h0, List.foldl_append, feedPair hp, feedBody hps hp]
      simp [toPObj]

theorem isNumStart_ne_backtick {c : Char} (h : isNumStart c = true) :
    c ≠ '\x60' := by
  intro hq
  rw [hq] at h
  exact absurd h (by decide)

theorem isNumChar_ne_backtick {c : Char} (h : isNumChar c = true) :
    c ≠ '\x60' := by
  intro hq
  rw [hq] at h
  exact absurd h (by decide)

theorem renderVal_noBacktick {v : Val} (h : safeVal v = true) :
    ∀ c ∈ renderValChars v, c ≠ '\x60' := by
  intro c hc
  cases v with
  | vstr cs =>
      rw [safeVal, List.all_eq_true] at h
      rw [renderValChars] at hc
      rcases List.mem_cons.mp hc with rfl | hc1
      · decide
      rcases List.mem_append.mp hc1 with hc2 | hc2
      · exact (safeChar_ne (h c hc2)).2
      · rcases List.mem_cons.mp hc2 with rfl | hc3
        · decide
        · simp at hc3
  | vnum cs =>
      cases cs with
      | nil => simp [safeVal] at h
      | cons c0 rest0 =>
          simp only [safeVal, Bool.and_eq_true, List.all_eq_true] at h
          rw [renderValChars] at hc
          rcases List.mem_cons.mp hc with rfl | hc
          · exact isNumStart_ne_backtick h.1
          · exact isNumChar_ne_backtick (h.2 c hc)
  | vnull => simp [safeVal] at h

theorem renderPair_noBacktick {p : List Char × Val} (h : safePair p = true) :
    ∀ c ∈ renderPairChars p, c ≠ '\x60' := by
  obtain ⟨k, v⟩ := p
  rw [safePair, Bool.and_eq_true] at h
  obtain ⟨hk, hv⟩ := h
  rw [List.all_eq_true] at hk
  intro c hc
  rw [renderPairChars] at hc
  rcases List.mem_cons.mp hc with rfl | hc1
  · decide
  rcases List.mem_append.mp hc1 with hc2 | hc2
  · rcases List.mem_append.mp hc2 with hc3 | hc3
    · exact (safeChar_ne (hk c hc3)).2
    rcases List.mem_cons.mp hc3 with rfl | hc4
    · decide
    rcases List.mem_cons.mp hc4 with rfl | hc5
    · decide
    rcases List.mem_cons.mp hc5 with rfl | hc6
    · decide
    · simp at hc6
  · exact renderVal_noBacktick hv c hc2

theorem renderRest_noBacktick {ps : List (List Char × Val)}
    (h : safeVals ps = true) : ∀ c ∈ renderRestChars ps, c ≠ '\x60' := by
  induction ps with
  | nil =>
      intro c hc
      simp [renderRestChars] at hc
  | cons q qs ih =>
      rw [safeVals, List.all_cons, Bool.and_eq_true] at h
      obtain ⟨hq, hqs⟩ := h
      intro c hc
      rw [renderRestChars] at hc
      rcases List.mem_cons.mp hc with rfl | hc1
      · decide
      rcases List.mem_cons.mp hc1 with rfl | hc2
      · decide
      rcases List.mem_append.mp hc2 with hc3 | hc3
      · exact renderPair_noBacktick hq c hc3
      · exact ih hqs c hc3

theorem renderInstance_noBacktick {vals : List (List Char × Val)}
    (h : safeVals vals = true) :
    ∀ c ∈ renderInstanceChars vals, c ≠ '\x60' := by
  intro c hc
  rw [renderInstanceChars] at hc
  rcases List.mem_cons.mp hc with rfl | hc1
  · decide
  rcases List.mem_append.mp hc1 with hc2 | hc2
  · cases vals with
    | nil => simp [renderPairsChars] at hc2
    | cons p ps =>
        rw [safeVals, List.all_cons, Bool.and_eq_true] at h
        rw [renderPairsChars] at hc2
        rcases List.mem_append.mp hc2 with hc3 | hc3
        · exact renderPair_noBacktick h.1 c hc3
        · exact renderRest_noBacktick h.2 c hc3
  · rcases List.mem_cons.mp hc2 with rfl | hc3
    · decide
    · simp at hc3

theorem splitAtTag_head (tag rest : List Char) (hne : tag ≠ []) :
    splitAtTag tag (tag ++ rest) = some ([], rest) := by
  cases tag with
  | nil => cases hne rfl
  | cons t ts =>
      rw [List.cons_append, splitAtTag]
      rw [if_pos]
      · rw [show t :: (ts ++ rest) = (t :: ts) ++ rest from rfl,
          List.drop_left]
      · rw [show t :: (ts ++ rest) = (t :: ts) ++ rest from rfl]
        exact prefixOf_append_right (t :: ts) rest

theorem splitAtTag_before {l tail : List Char} (h : ∀ c ∈ l, c ≠ '\x60') :
    splitAtTag fenceChars (l ++ (fenceChars ++ tail)) = some (l, tail) := by
  induction l with
  | nil =>
      rw [List.nil_append]
      exact splitAtTag_head fenceChars tail (by decide)
  | cons c cs ih =>
      have hc : c ≠ '\x60' := h c (List.mem_cons_self _ _)
      rw [List.cons_append, splitAtTag]
      have hpre : prefixOf fenceChars (c :: (cs ++ (fenceChars ++ tail))) =
          false := by
        rw [fenceChars, prefixOf, Bool.and_eq_false_iff]
        left
        rw [beq_eq_false_iff_ne]
        exact fun he => hc he.symm
      rw [if_neg (by simp [hpre])]
      rw [ih fun c hc2 => h c (List.mem_cons_of_mem _ hc2)]

theorem firstFenced_shaped {vals : List (List Char × Val)}
    (h : safeVals vals = true) :
    firstFencedBlock (shapedInstanceText vals).data =
      some ('\n' :: renderInstanceChars vals ++ ['\n']) := by
  have hl : ∀ c ∈ ('\n' :: renderInstanceChars vals ++ ['\n']), c ≠ '\x60' := by
    intro c hc
    rcases List.mem_cons.mp hc with rfl | hc1
    · decide
    rcases List.mem_append.mp hc1 with hc2 | hc2
    · exact renderInstance_noBacktick h c hc2
    · rcases List.mem_cons.mp hc2 with rfl | hc3
      · decide
      · simp at hc3
  have hdata : (shapedInstanceText vals).data =
      jsonTagChars ++ (('\n' :: renderInstanceChars vals ++ ['\n']) ++
        (fenceChars ++ [])) := by
    rw [shapedInstanceText]
    simp
  simp only [firstFencedBlock, hdata,
    splitAtTag_head jsonTagChars _ (by decide), splitAtTag_before hl]

theorem render_closed {vals : List (List Char × Val)}
    (h : safeVals vals = true) :
    (renderInstanceChars vals).foldl pstep PState.start =
      .closed (toPObj vals) := by
  have hp := parse_render h
  rw [parseObjChars] at hp
  cases hst : (renderInstanceChars vals).foldl pstep PState.start <;>
    rw [hst] at hp
  · cases hp
  · cases hp
  · cases hp
  · cases hp
  · cases hp
  · cases hp
  · cases hp
  · cases hp
  · rw [Option.some.injEq] at hp
    rw [hp]
  · cases hp

theorem shaped_block_parses {vals : List (List Char × Val)}
    (h : safeVals vals = true) :
    parseObjChars ('\n' :: renderInstanceChars vals ++ ['\n']) =
      some (toPObj vals) := by
  rw [parseObjChars, List.foldl_append]
  have hinner : List.foldl pstep PState.start
      ('\n' :: renderInstanceChars vals) = PState.closed (toPObj vals) := by
    rw [List.foldl_cons]
    have h0 : pstep PState.start '\n' = PState.start := rfl
    rw [h0, render_closed h]
  rw [hinner]
  rfl

theorem validateFields_ok {obj : PObj} {fs : List SchemaField}
    (h : ∀ f ∈ fs, (match alookup f.name.data obj with
        | some pv => typeOk f.ftype pv
        | none => !f.required) = true) :
    ∃ l, validateFields obj fs = .ok l := by
  induction fs with
  | nil => exact ⟨[], rfl⟩
  | cons g rest ih =>
      obtain ⟨l, hl⟩ := ih fun f hf => h f (List.mem_cons_of_mem _ hf)
      have hg := h g (List.mem_cons_self _ _)
      cases hga : alookup g.name.data obj with
      | some pv =>
          rw [hga] at hg
          have hg2 : typeOk g.ftype pv = true := hg
          exact ⟨(g.name.data, toVal pv) :: l,
            by simp [validateFields, hga, hg2, hl]⟩
      | none =>
          rw [hga] at hg
          have hg2 : (!g.required) = true := hg
          have hreq : ¬ g.required = true := by
            simp only [Bool.not_eq_true'] at hg2
            simp [hg2]
          exact ⟨(g.name.data, g.default.getD Val.vnull) :: l,
            by simp [validateFields, hga, hreq, hl]⟩

/-- C8: buildPrompt is a deterministic pure function of the schema (first
conjunct: its output depends only on the schema's declared fields), and the
pair round-trips: extract applied to a well-formed text instance shaped
exactly as the rendered instructions demand (a fenced JSON object) recovers
a successful value in which every required field of the schema is present. -/
theorem claim8_buildPrompt_roundTrip (S : Schema)
    (vals : List (List Char × Val)) (hwf : schemaWF S = true)
    (hsafe : safeVals vals = true) (hsat : satisfies S vals = true) :
    (∀ S' : Schema, S'.fields = S.fields → buildPrompt S' = buildPrompt S) ∧
    ∃ v, extract S ⟨shapedInstanceText vals, none⟩ false = .ok (.success v) ∧
      ∀ f ∈ S.fields, f.required = true →
        ∃ w, alookup f.name.data v.fields = some w := by
  constructor
  · intro S' hS
    rw [buildPrompt, buildPrompt, hS]
  · have hnd : (S.fields.map fun f => f.name).Nodup := by
      simpa [schemaWF] using hwf
    rw [satisfies, List.all_eq_true] at hsat
    obtain ⟨l, hl⟩ := validateFields_ok hsat
    have hvok : validate S (toPObj vals) = .ok ⟨l,
        ((toPObj vals).filter fun kv =>
          !(decide (kv.1 ∈ schemaNames S))).map fun kv =>
            (kv.1, toVal kv.2)⟩ := by
      rw [validate, hl]
    refine ⟨⟨l, ((toPObj vals).filter fun kv =>
        !(decide (kv.1 ∈ schemaNames S))).map fun kv =>
          (kv.1, toVal kv.2)⟩, ?_, ?_⟩
    · have hfen : stageFenced S ⟨shapedInstanceText vals, none⟩ =
          some ⟨l, ((toPObj vals).filter fun kv =>
            !(decide (kv.1 ∈ schemaNames S))).map fun kv =>
              (kv.1, toVal kv.2)⟩ := by
        simp only [stageFenced, firstFenced_shaped hsafe,
          shaped_block_parses hsafe, hvok, Except.toOption]
      have hdir : stageDirect S ⟨shapedInstanceText vals, none⟩ = none := rfl
      simp only [extract, extractCore, hdir, hfen]
    · intro f hf hreq
      exact ⟨_, validateFields_lookup hnd hl hf⟩

/-- Witness for C8 at the joke schema: a well-formed shaped instance carrying
both required fields decodes successfully with both fields present. -/
theorem claim8_witness :
    ∃ v, extract jokeSchema
      ⟨shapedInstanceText [("setup".data, .vstr "hi".data),
        ("punchline".data, .vstr "ha".data)], none⟩ false =
          .ok (.success v) ∧
      ∀ f ∈ jokeSchema.fields, f.required = true →
        ∃ w, alookup f.name.data v.fields = some w :=
  (claim8_buildPrompt_roundTrip jokeSchema
    [("setup".data, .vstr "hi".data), ("punchline".data, .vstr "ha".data)]
    (by decide) (by decide) (by decide)).2
